import Mathlib

/-!
Verification development for the wordbook Bob plugin (src/main.js).

Strings are modelled as `List Char` (JS strings are sequences of code
points for the purposes of this plugin; no surrogate-pair processing
occurs in the source).  Each definition below transliterates one JS
function or regular expression from src/main.js; the source location is
given in the doc comment.
-/

namespace Wordbook

/-- ASCII letter class `[A-Za-z]` used by the source's regexes. -/
def isAsciiLetter (c : Char) : Bool :=
  ((65 ≤ c.toNat) && (c.toNat ≤ 90)) || ((97 ≤ c.toNat) && (c.toNat ≤ 122))

/-- ASCII digit class `[0-9]`. -/
def isAsciiDigit (c : Char) : Bool :=
  (48 ≤ c.toNat) && (c.toNat ≤ 57)

/-- The apostrophe character (code point 39). -/
def apos : Char := Char.ofNat 39

/-- Character class `[A-Za-z'-]` : the characters allowed strictly inside a
word by the source's word regex. -/
def isWordInner (c : Char) : Bool :=
  isAsciiLetter c || (c.toNat == 45) || (c.toNat == 39)

/-- JavaScript whitespace (the class `\s`, which is also the set trimmed by
`String.prototype.trim`): tab, LF, VT, FF, CR, space, NBSP, Ogham space,
the U+2000..U+200A range, LS, PS, NNBSP, MMSP, ideographic space, BOM. -/
def jsWhitespace (c : Char) : Bool :=
  let n := c.toNat
  (n == 0x9) || (n == 0xA) || (n == 0xB) || (n == 0xC) || (n == 0xD) ||
  (n == 0x20) || (n == 0xA0) || (n == 0x1680) ||
  ((0x2000 ≤ n) && (n ≤ 0x200A)) ||
  (n == 0x2028) || (n == 0x2029) || (n == 0x202F) || (n == 0x205F) ||
  (n == 0x3000) || (n == 0xFEFF)

/-- CJK detection used by the source: the regex character class
`[぀-ヿ㐀-鿿가-힯]` (src/main.js line 235). -/
def isCJKChar (c : Char) : Bool :=
  let n := c.toNat
  ((0x3040 ≤ n) && (n ≤ 0x30FF)) ||
  ((0x3400 ≤ n) && (n ≤ 0x9FFF)) ||
  ((0xAC00 ≤ n) && (n ≤ 0xD7AF))

/-- JavaScript `String.prototype.trim`: remove leading and trailing
JS whitespace. -/
def trim (s : List Char) : List Char :=
  ((s.dropWhile jsWhitespace).reverse.dropWhile jsWhitespace).reverse

/-- Lowercasing of an ASCII letter; other characters are unchanged.  The
source applies JS `toLowerCase` only to strings whose relevant characters
are ASCII (regex-extracted tokens), where the two functions agree. -/
def asciiLower (c : Char) : Char :=
  if (65 ≤ c.toNat) && (c.toNat ≤ 90) then Char.ofNat (c.toNat + 32) else c

/-- JS `text.trim().toLowerCase()` — `normalizeWord` (src/main.js 218-221). -/
def normalizeWord (s : List Char) : List Char :=
  (trim s).map asciiLower

/-- Decidable prefix test on character lists. -/
def listStartsWith : List Char → List Char → Bool
  | [], _ => true
  | _ :: _, [] => false
  | p :: ps, c :: cs => (p == c) && listStartsWith ps cs

/-- Case-insensitive prefix test (pattern given already lowercased), for the
source's `/i` regex flags. -/
def listStartsWithCI : List Char → List Char → Bool
  | [], _ => true
  | _ :: _, [] => false
  | p :: ps, c :: cs => (p == asciiLower c) && listStartsWithCI ps cs

/-- Decidable substring (infix) test on character lists. -/
def containsSub (pat : List Char) : List Char → Bool
  | [] => listStartsWith pat []
  | s@(_ :: cs) => listStartsWith pat s || containsSub pat cs

/-- The email regex of src/main.js line 232, anchored:
`[^\s@]+ @ [^\s@]+ . [^\s@]+` (the `/i` flag is irrelevant: the class is
negated and contains no letters).  Because all three parts exclude `@`,
a matching string contains exactly one `@`; the part after it must be
non-empty, whitespace-free, and contain a dot that is neither its first
nor its last character. -/
def emailShaped (s : List Char) : Bool :=
  (s.count '@' == 1) &&
  (let a := s.takeWhile (fun c => !(c == '@'))
   let r := (s.dropWhile (fun c => !(c == '@'))).tail
   (!a.isEmpty) && (!r.isEmpty) &&
   a.all (fun c => !jsWhitespace c) && r.all (fun c => !jsWhitespace c) &&
   ((r.drop 1).dropLast).contains '.')

/-- The URL regex of src/main.js line 233:
starts with `http://`, `https://` or `www.` (case-insensitively), or
contains `://` anywhere. -/
def urlShaped (s : List Char) : Bool :=
  listStartsWithCI ('h' :: 't' :: 't' :: 'p' :: ':' :: '/' :: '/' :: []) s ||
  listStartsWithCI ('h' :: 't' :: 't' :: 'p' :: 's' :: ':' :: '/' :: '/' :: []) s ||
  listStartsWithCI ('w' :: 'w' :: 'w' :: '.' :: []) s ||
  containsSub (':' :: '/' :: '/' :: []) s

/-- The word-shape regex of src/main.js line 237, anchored:
a letter, optionally followed by `[A-Za-z'-]*` and a final letter. -/
def wordShapeMatch : List Char → Bool
  | [] => false
  | c :: rest =>
    isAsciiLetter c &&
    (rest.isEmpty ||
      (rest.dropLast.all isWordInner &&
        (match rest.getLast? with
         | some d => isAsciiLetter d
         | none => false)))

/-- Truncation used by the greedy token regex: keep the run up to (and
including) its last ASCII letter; empty if it has no letter. -/
def truncAtLastLetter (run : List Char) : List Char :=
  (run.reverse.dropWhile (fun c => !isAsciiLetter c)).reverse

/-- Right-to-left accumulation of the maximal runs of `[A-Za-z'-]`
characters: returns the run containing the head (possibly empty) and the
later complete runs. -/
def innerBlocksCore : List Char → List Char × List (List Char)
  | [] => ([], [])
  | c :: rest =>
    let p := innerBlocksCore rest
    if isWordInner c then (c :: p.1, p.2)
    else ([], if p.1.isEmpty then p.2 else p.1 :: p.2)

/-- The maximal non-empty runs of `[A-Za-z'-]` characters of a string, in
order. -/
def innerBlocks (s : List Char) : List (List Char) :=
  let p := innerBlocksCore s
  if p.1.isEmpty then p.2 else p.1 :: p.2

/-- All matches of the global regex `[A-Za-z](?:[A-Za-z'-]*[A-Za-z])?`
(src/main.js line 270) in left-to-right order.  Every character the
pattern can consume lies in the class `[A-Za-z'-]`, so each match sits
inside one maximal run of that class; inside a run, the scanner starts at
the run's first letter and — greedy `[A-Za-z'-]*` followed by a final
`[A-Za-z]`, i.e. backtracking to the last letter — consumes up to the
run's last letter, after which the run's remaining characters contain no
letter and yield no further match.  A run with no letter yields no
match. -/
def blockToken (b : List Char) : Option (List Char) :=
  let t := truncAtLastLetter (b.dropWhile (fun c => !isAsciiLetter c))
  if t.isEmpty then none else some t

/-- All regex matches of the string, in order: the token of each maximal
run. -/
def roughTokens (s : List Char) : List (List Char) :=
  (innerBlocks s).filterMap blockToken

/-- Doubled hyphen pattern `--`. -/
def doubleHyphen : List Char := '-' :: '-' :: []

/-- Doubled apostrophe pattern. -/
def doubleApos : List Char := apos :: apos :: []

/-- The strict single-English-word predicate `isLikelyEnglishWord`
(src/main.js 228-240): trim, then reject empty/overlong strings, emails,
URLs, whitespace, CJK, digits/underscore, non-word shapes and doubled
`--` or `''`. -/
def isLikelyEnglishWord (text : List Char) : Bool :=
  let s := trim text
  (!s.isEmpty) && (s.length ≤ 64) &&
  (!emailShaped s) && (!urlShaped s) &&
  (!s.any jsWhitespace) &&
  (!s.any isCJKChar) &&
  (!s.any (fun c => isAsciiDigit c || (c == '_'))) &&
  wordShapeMatch s &&
  (!containsSub doubleHyphen s) && (!containsSub doubleApos s)

/-- Accumulator loop of `uniqueStable` (src/main.js 285-294): a `seen`
string-keyed map, keeping the first occurrence of each element. -/
def uniqueStableGo (seen : List (List Char)) : List (List Char) → List (List Char)
  | [] => []
  | x :: xs =>
    if x ∈ seen then uniqueStableGo seen xs
    else x :: uniqueStableGo (x :: seen) xs

/-- The `uniqueStable` helper: deduplicate keeping first-seen order. -/
def uniqueStable (l : List (List Char)) : List (List Char) :=
  uniqueStableGo [] l

/-- Loop body of `localExtractWords` (src/main.js 272-280): normalize each
rough token, drop empty or non-strict-word results, deduplicate via a
`seen` map. -/
def localExtractGo (seen : List (List Char)) : List (List Char) → List (List Char)
  | [] => []
  | t :: ts =>
    let w := normalizeWord t
    if w.isEmpty then localExtractGo seen ts
    else if !isLikelyEnglishWord w then localExtractGo seen ts
    else if w ∈ seen then localExtractGo seen ts
    else w :: localExtractGo (w :: seen) ts

/-- The Local Fallback Tokenizer `localExtractWords` (src/main.js 267-282):
regex rough extraction, lowercase-normalization, strict re-validation,
order-preserving dedup. -/
def localExtractWords (text : List Char) : List (List Char) :=
  localExtractGo [] (roughTokens text)

/-- JSON values as produced by the host's JSON parsing of HTTP bodies and
by `JSON.parse`.  Numeric literals are kept verbatim (`jnum`); the plugin
never uses a numeric value other than comparing with `0`. -/
inductive JValue where
  | jnull : JValue
  | jbool : Bool → JValue
  | jnum : List Char → JValue
  | jstr : List Char → JValue
  | jarr : List JValue → JValue
  | jobj : List (List Char × JValue) → JValue

/-- Last-wins association lookup, matching `JSON.parse`'s duplicate-key
semantics for JS property access on parsed objects. -/
def lookupField (fields : List (List Char × JValue)) (key : List Char) : Option JValue :=
  match fields with
  | [] => none
  | (k, v) :: rest =>
    match lookupField rest key with
    | some w => some w
    | none => if k == key then some v else none

/-- Property access on an arbitrary JS value: objects expose their fields;
property reads on primitives and arrays used by this plugin yield
`undefined`, which we model as the empty field list. -/
def asFields : JValue → List (List Char × JValue)
  | .jobj fs => fs
  | _ => []

/-- Property read `v.key`, with `jnull` standing for JS `undefined`. -/
def fieldD (v : JValue) (key : List Char) : JValue :=
  (lookupField (asFields v) key).getD .jnull

/-- Truthiness of a numeric literal: its mantissa has a nonzero digit. -/
def numLitNonzero (lit : List Char) : Bool :=
  ((lit.takeWhile (fun c => !((c == 'e') || (c == 'E')))).filter isAsciiDigit).any
    (fun c => !(c == '0'))

/-- JS truthiness of a JSON value. -/
def jsTruthy : JValue → Bool
  | .jnull => false
  | .jbool b => b
  | .jnum lit => numLitNonzero lit
  | .jstr s => !s.isEmpty
  | .jarr _ => true
  | .jobj _ => true

mutual

/-- JS `String(v)` on a JSON value.  A numeric literal is rendered
verbatim (the exact JS decimal rendering differs in general but, like the
literal, always contains a digit, which is all the plugin's validation
depends on); arrays render as their comma-join with `null` elements
rendered empty; objects render as the standard object placeholder. -/
def jsStringOf : JValue → List Char
  | .jnull => ('n' :: 'u' :: 'l' :: 'l' :: [])
  | .jbool true => ('t' :: 'r' :: 'u' :: 'e' :: [])
  | .jbool false => ('f' :: 'a' :: 'l' :: 's' :: 'e' :: [])
  | .jnum lit => lit
  | .jstr s => s
  | .jarr vs => jsArrJoin vs
  | .jobj _ => ("[object Object]".toList)

/-- JS `Array.prototype.join(",")` as invoked by `String(array)`:
elements comma-separated, `null` elements rendered empty. -/
def jsArrJoin : List JValue → List Char
  | [] => []
  | v :: vs =>
    (match v with | .jnull => [] | w => jsStringOf w) ++
    (match vs with
     | [] => []
     | _ => ',' :: jsArrJoin vs)

end

/-- JS `String(v || "")` — the coercion applied to each candidate at
src/main.js line 533. -/
def jsToString (v : JValue) : List Char :=
  if jsTruthy v then jsStringOf v else []

/-- Strict equality test `v === 0` for a JS value decoded from JSON. -/
def jsStrictEqZero : JValue → Bool
  | .jnum lit => !numLitNonzero lit
  | _ => false

/-- Text contribution of one element of a multimodal `content` array
(src/main.js 397-405): only parts with `type === "text"` and a string
`text` field contribute. -/
def arkPartText (part : JValue) : List Char :=
  match fieldD part ("type".toList), fieldD part ("text".toList) with
  | .jstr ty, .jstr tx => if ty == ("text".toList) then tx else []
  | _, _ => []

/-- Robust text extraction from an Ark chat-completions response body,
`extractArkContent` (src/main.js 384-421): string content, multimodal
part array, `reasoning_content` fallback, or a top-level `output_text`;
empty text otherwise.  Only the `text` component is modelled
(`finish_reason` is never consumed by the plugin). -/
def extractArkContent (data : JValue) : List Char :=
  match fieldD data ("choices".toList) with
  | .jarr (c0 :: _) =>
    let msg := fieldD c0 ("message".toList)
    (match fieldD msg ("content".toList) with
     | .jstr s => s
     | .jarr parts => (parts.map arkPartText).flatten
     | _ =>
       match fieldD msg ("reasoning_content".toList) with
       | .jstr rc => if rc.isEmpty then [] else rc
       | _ => [])
  | _ =>
    match fieldD data ("output_text".toList) with
    | .jstr s => s
    | _ => []

/-- Candidate selection after the LLM call (src/main.js 513-527):
`JSON.parse(content)` dispatch.  The parameter `jp` is the outcome of the
host's `JSON.parse` builtin applied to `content` — `none` when it threw.
An array is used directly; an object with an `add` array contributes that
array; any other successfully parsed shape yields no candidates; only a
parse failure falls back to the local tokenizer over `content`. -/
def selectCandidates (jp : Option JValue) (content : List Char) : List JValue :=
  match jp with
  | some (.jarr xs) => xs
  | some (.jobj fields) =>
    match lookupField fields ("add".toList) with
    | some (.jarr xs) => xs
    | _ => []
  | some _ => []
  | none => (localExtractWords content).map JValue.jstr

/-- Validation / dedup / cap of the candidate list (src/main.js 529-538):
trim each `String(x || "")`, keep the strict words, `uniqueStable`, then
`slice(0, maxAdd)`. -/
def cleanCandidates (wordsToAdd : List JValue) (maxAdd : Nat) : List (List Char) :=
  (uniqueStable ((wordsToAdd.map (fun v => trim (jsToString v))).filter
    isLikelyEnglishWord)).take maxAdd

/-- The fields of the extractor's resolved value that the pipeline
consumes (src/main.js 539-549 and 553-564); the purely diagnostic fields
(`data`, `headers`, `durationMs`, `url`, `endpoint`, `model`) are not
modelled. -/
structure ExtractionOutcome where
  ok : Bool
  statusCode : Nat
  words : List (List Char)
  errorMessage : Option (List Char)
deriving DecidableEq

/-- The fulfilled-branch handler of the LLM request (src/main.js 508-549).
`sc` is `resp.response.statusCode || 0`; `content` is the trimmed
extracted text; `jp` is the `JSON.parse(content)` outcome. -/
def llmSuccessOutcome (sc : Nat) (data : JValue) (jp : Option JValue) (maxAdd : Nat) :
    ExtractionOutcome :=
  let content := trim (extractArkContent data)
  let cleaned := cleanCandidates (selectCandidates jp content) maxAdd
  { ok := decide (200 ≤ sc) && decide (sc < 300) && decide (0 ≤ cleaned.length),
    statusCode := sc,
    words := cleaned,
    errorMessage := none }

/-- LLM configuration read from `$option` (src/main.js 436-441); a JS
falsy (missing or empty) option is the empty string. -/
structure LLMConfig where
  volcano_api_key : List Char
  volcano_endpoint : List Char
  volcano_model : List Char
  llm_words_max_add : Nat

/-- Settlement of the transport promise issued at src/main.js 486-507.
For a rejection, `errStatusCode` models `err.response.statusCode` and
`errMsg` the `errorToMessage(err)` rendering of the error. -/
inductive LLMTransport where
  | fulfilled (statusCode : Nat) (data : JValue) (parsedContent : Option JValue)
  | rejected (errStatusCode : Option Nat) (errMsg : List Char)

/-- The extractor `extractWordsByLLMVolcano` (src/main.js 434-566) as a
function of its configuration and of how the single transport promise
settles.  It is total: every branch resolves with an outcome. -/
def extractWordsByLLMVolcano (cfg : LLMConfig) (t : LLMTransport) : ExtractionOutcome :=
  if cfg.volcano_api_key.isEmpty || cfg.volcano_endpoint.isEmpty ||
      cfg.volcano_model.isEmpty then
    { ok := false, statusCode := 0, words := [], errorMessage := none }
  else
    match t with
    | .fulfilled sc data jp => llmSuccessOutcome sc data jp cfg.llm_words_max_add
    | .rejected esc emsg =>
      { ok := false, statusCode := esc.getD 0, words := [], errorMessage := some emsg }

/-- The derived option `WORD_CHECK_TIMEOUT_MS` (src/main.js line 82):
`Number($option.word_check_timeout_ms) || 50000`, so an absent, zero or
non-numeric option falls back to 50000. -/
def WORD_CHECK_TIMEOUT_MS (opt : Option Nat) : Nat :=
  match opt with
  | some n => if n == 0 then 50000 else n
  | none => 50000

/-- The derived transport timeout `WORD_CHECK_TIMEOUT_S` (src/main.js
line 83): `Math.max(1, Math.ceil(ms / 50000))`, in whole seconds.  It is
the value passed as `timeout` on every outbound request of the plugin. -/
def WORD_CHECK_TIMEOUT_S (ms : Nat) : Nat :=
  max 1 ((ms + 49999) / 50000)

/-- Modelled from the spec: the transport timeout the specification
describes — the ceiling of the millisecond budget divided by 1000, with a
floor of one second.  Kept separately to compare with the source's
`WORD_CHECK_TIMEOUT_S`. -/
def claimedTransportTimeoutS (ms : Nat) : Nat :=
  max 1 ((ms + 999) / 1000)

/-- The two response fields a dictionary-write handler inspects:
`res.response.statusCode` (absent on non-HTTP shapes) and `res.data`. -/
structure HttpRes where
  statusCode : Option Nat
  data : JValue

/-- How the single transport promise of one write settles. -/
inductive WriteTransport where
  | fulfilled (res : HttpRes)
  | rejected

/-- Payload delivered to the per-word callback: `buildResult` carries its
message in `toParagraphs[0]`, `buildError` in `message`; the constant
envelope fields are not modelled. -/
inductive WritePayload where
  | result (msg : List Char)
  | error (msg : List Char)
deriving DecidableEq

/-- Message `添加单词成功：<word>`. -/
def addOkMsg (w : List Char) : List Char := ("添加单词成功：".toList) ++ w

/-- Masked-success message `添加单词成功（超时本地兜底）：<word>` emitted by the
write-layer catch handlers. -/
def addFallbackMsg (w : List Char) : List Char :=
  ("添加单词成功（超时本地兜底）：".toList) ++ w

/-- Youdao structural-failure hint. -/
def youdaoErrMsg : List Char := "有道 Cookie 错误或过期，请重新填写。".toList

/-- Shanbay structural-failure hint. -/
def shanbayErrMsg : List Char := "扇贝 auth_token 错误或过期，请重新填写。".toList

/-- Eudic dispatch failure hint. -/
def eudicErrMsg : List Char := "欧路词典 token 或配置有误，请检查。".toList

/-- Youdao per-word write `addWordYoudao` (src/main.js 590-614): on a
fulfilled response, success iff `data.code === 0`, else the cookie hint;
on transport rejection, the catch handler reports a masked success. -/
def addWordYoudao (t : WriteTransport) (word : List Char) : WritePayload :=
  match t with
  | .fulfilled res =>
    if jsStrictEqZero (fieldD res.data ("code".toList)) then .result (addOkMsg word)
    else .error youdaoErrMsg
  | .rejected => .result (addFallbackMsg word)

/-- Shanbay per-word write `addWordShanbay` (src/main.js 661-682): success
iff HTTP 200, else the token hint; masked success on rejection. -/
def addWordShanbay (t : WriteTransport) (word : List Char) : WritePayload :=
  match t with
  | .fulfilled res =>
    if res.statusCode == some 200 then .result (addOkMsg word)
    else .error shanbayErrMsg
  | .rejected => .result (addFallbackMsg word)

/-- What `addWordEudic` (src/main.js 617-634) hands to its callback: the
raw response on fulfilment, or a synthesized masked-success payload on
rejection. -/
inductive EudicCbArg where
  | raw (res : HttpRes)
  | fallbackPayload (msg : List Char)

/-- The Eudic per-word adapter `addWordEudic` (src/main.js 617-634). -/
def addWordEudic (t : WriteTransport) (word : List Char) : EudicCbArg :=
  match t with
  | .fulfilled res => .raw res
  | .rejected => .fallbackPayload (addFallbackMsg word)

/-- The per-word Eudic path through the `addWord` dispatcher (src/main.js
575-584): the callback re-checks `res.response.statusCode === 201`.  The
synthesized fallback payload has no `response` field, so it falls into the
else branch and is reported as the credential error. -/
def addWordEudicDispatch (t : WriteTransport) (word : List Char) : WritePayload :=
  match addWordEudic t word with
  | .raw res =>
    if res.statusCode == some 201 then .result (addOkMsg word)
    else .error eudicErrMsg
  | .fallbackPayload _ => .error eudicErrMsg

/-- Resolution value of `addWordP` (src/main.js 300-316) for one word. -/
structure WriteOutcome where
  ok : Bool
  message : List Char

/-- Aggregated report of `addWordsInSeries` (src/main.js 323-339). -/
structure BatchReport where
  success : List (List Char)
  failed : List (List Char × List Char)
deriving DecidableEq

/-- The accumulator recursion `next()` of `addWordsInSeries` (src/main.js
327-337): one word is taken per step, its settled result is pushed onto
`success` or `failed` (with reason defaulting to `未知原因`), and only then
is the next word processed.  `outcome w` abstracts the settled value of
`addWordP(..., w)`. -/
def addWordsInSeriesGo (outcome : List Char → WriteOutcome) (succ : List (List Char))
    (failed : List (List Char × List Char)) : List (List Char) → BatchReport
  | [] => { success := succ, failed := failed }
  | w :: ws =>
    let r := outcome w
    if r.ok then addWordsInSeriesGo outcome (succ ++ [w]) failed ws
    else
      addWordsInSeriesGo outcome succ
        (failed ++ [(w, if r.message.isEmpty then ("未知原因".toList) else r.message)]) ws

/-- Serial batch write `addWordsInSeries` (src/main.js 323-339). -/
def addWordsInSeries (outcome : List Char → WriteOutcome) (words : List (List Char)) :
    BatchReport :=
  addWordsInSeriesGo outcome [] [] words

/-- Observable transport events of the serial write: issuing the request
for a word, and the settlement of that request. -/
inductive WriteEv where
  | issue (w : List Char)
  | settle (w : List Char) (ok : Bool)
deriving DecidableEq

/-- Event trace of `addWordsInSeries`: each `addWordP` call issues exactly
one provider request, and the continuation (recording the result and
running `next()` for the remaining words) is the `.then` of that promise,
so it runs only after the settlement event. -/
def seriesEvents (outcome : List Char → WriteOutcome) : List (List Char) → List WriteEv
  | [] => []
  | w :: ws => .issue w :: .settle w (outcome w).ok :: seriesEvents outcome ws

/-- Modelled from the spec (§4.1), for comparison with the source's
`isLikelyEnglishWord`: a trimmed string is a strict word iff its length is
1–64, it is not email- or URL-shaped, it contains no whitespace, CJK,
digit or underscore characters, it is a letter optionally followed by
word-inner characters ending in a letter, and it contains no doubled
hyphen or apostrophe. -/
def strictWordSpec (s : List Char) : Prop :=
  1 ≤ s.length ∧ s.length ≤ 64 ∧
  emailShaped s = false ∧ urlShaped s = false ∧
  (∀ c ∈ s, jsWhitespace c = false) ∧
  (∀ c ∈ s, isCJKChar c = false) ∧
  (∀ c ∈ s, isAsciiDigit c = false ∧ c ≠ '_') ∧
  (∃ c rest, s = c :: rest ∧ isAsciiLetter c = true ∧
    (rest = [] ∨
      ((∀ d ∈ rest.dropLast, isWordInner d = true) ∧
        ∃ d, rest.getLast? = some d ∧ isAsciiLetter d = true))) ∧
  containsSub doubleHyphen s = false ∧ containsSub doubleApos s = false

/-- JS `Array.prototype.join(" ")` on a list of words. -/
def joinSpace : List (List Char) → List Char
  | [] => []
  | [w] => w
  | w :: rest => w ++ ' ' :: joinSpace rest

/-- A non-empty word over the `[A-Za-z'-]` class that starts and ends
with a letter: exactly the shape of a token produced by the rough token
regex. -/
def goodToken (w : List Char) : Prop :=
  w ≠ [] ∧ (∀ c ∈ w, isWordInner c = true) ∧
  (∃ c, w.head? = some c ∧ isAsciiLetter c = true) ∧
  (∃ d, w.getLast? = some d ∧ isAsciiLetter d = true)

/-! ### Generic helper lemmas -/

theorem char_eq_of_toNat_eq {c d : Char} (h : c.toNat = d.toNat) : c = d := by
  apply Char.ext
  unfold Char.toNat at h
  exact UInt32.ext h

theorem toNat_charOfNat_valid {n : Nat} (h : n.isValidChar) : (Char.ofNat n).toNat = n := by
  unfold Char.ofNat Char.toNat
  split
  · unfold Char.ofNatAux
    simp [UInt32.toNat]
  · exact absurd h (by assumption)

theorem mem_dropWhile_of_not {α : Type} (p : α → Bool) {a : α} :
    ∀ {l : List α}, a ∈ l → p a = false → a ∈ l.dropWhile p
  | [], h, _ => absurd h (List.not_mem_nil a)
  | b :: bs, h, hpa => by
    by_cases hb : p b = true
    · rw [List.dropWhile_cons_of_pos hb]
      rcases List.mem_cons.mp h with rfl | hmem
      · rw [hpa] at hb; exact absurd hb (by simp)
      · exact mem_dropWhile_of_not p hmem hpa
    · rw [List.dropWhile_cons_of_neg hb]
      exact h

theorem dropWhile_eq_self_of_none {α : Type} (p : α → Bool) {l : List α}
    (h : ∀ a ∈ l, p a = false) : l.dropWhile p = l := by
  cases l with
  | nil => rfl
  | cons b bs => exact List.dropWhile_cons_of_neg (by simp [h b (List.mem_cons_self b bs)])

theorem mem_trim {c : Char} {s : List Char} (h : c ∈ s) (hc : jsWhitespace c = false) :
    c ∈ trim s := by
  unfold trim
  rw [List.mem_reverse]
  refine mem_dropWhile_of_not _ ?_ hc
  rw [List.mem_reverse]
  exact mem_dropWhile_of_not _ h hc

theorem trim_eq_self {s : List Char} (h : ∀ c ∈ s, jsWhitespace c = false) :
    trim s = s := by
  unfold trim
  rw [dropWhile_eq_self_of_none _ h,
      dropWhile_eq_self_of_none _ (by simpa using fun c hc => h c hc),
      List.reverse_reverse]

/-! ### Character-class facts -/

theorem isAsciiLetter_iff (c : Char) :
    isAsciiLetter c = true ↔ (65 ≤ c.toNat ∧ c.toNat ≤ 90) ∨ (97 ≤ c.toNat ∧ c.toNat ≤ 122) := by
  simp [isAsciiLetter]

theorem isAsciiDigit_iff (c : Char) :
    isAsciiDigit c = true ↔ 48 ≤ c.toNat ∧ c.toNat ≤ 57 := by
  simp [isAsciiDigit]

theorem isWordInner_iff (c : Char) :
    isWordInner c = true ↔
      (65 ≤ c.toNat ∧ c.toNat ≤ 90) ∨ (97 ≤ c.toNat ∧ c.toNat ≤ 122) ∨
      c.toNat = 45 ∨ c.toNat = 39 := by
  simp [isWordInner, isAsciiLetter_iff, or_assoc]

theorem jsWhitespace_iff (c : Char) :
    jsWhitespace c = true ↔
      c.toNat = 0x9 ∨ c.toNat = 0xA ∨ c.toNat = 0xB ∨ c.toNat = 0xC ∨ c.toNat = 0xD ∨
      c.toNat = 0x20 ∨ c.toNat = 0xA0 ∨ c.toNat = 0x1680 ∨
      (0x2000 ≤ c.toNat ∧ c.toNat ≤ 0x200A) ∨
      c.toNat = 0x2028 ∨ c.toNat = 0x2029 ∨ c.toNat = 0x202F ∨ c.toNat = 0x205F ∨
      c.toNat = 0x3000 ∨ c.toNat = 0xFEFF := by
  simp [jsWhitespace, or_assoc]

theorem isCJKChar_iff (c : Char) :
    isCJKChar c = true ↔
      (0x3040 ≤ c.toNat ∧ c.toNat ≤ 0x30FF) ∨ (0x3400 ≤ c.toNat ∧ c.toNat ≤ 0x9FFF) ∨
      (0xAC00 ≤ c.toNat ∧ c.toNat ≤ 0xD7AF) := by
  simp [isCJKChar, or_assoc]

theorem letter_isWordInner {c : Char} (h : isAsciiLetter c = true) : isWordInner c = true := by
  simp [isWordInner, h]

theorem cjk_not_ws {c : Char} (h : isCJKChar c = true) : jsWhitespace c = false := by
  rw [isCJKChar_iff] at h
  rw [Bool.eq_false_iff, ne_eq, jsWhitespace_iff]
  omega

theorem digit_or_underscore_not_ws {c : Char}
    (h : (isAsciiDigit c || (c == '_')) = true) : jsWhitespace c = false := by
  simp only [Bool.or_eq_true, isAsciiDigit_iff, beq_iff_eq] at h
  have hn : (48 ≤ c.toNat ∧ c.toNat ≤ 57) ∨ c.toNat = 95 := by
    rcases h with h | rfl
    · exact Or.inl h
    · exact Or.inr rfl
  rw [Bool.eq_false_iff, ne_eq, jsWhitespace_iff]
  omega

theorem inner_not_ws {c : Char} (h : isWordInner c = true) : jsWhitespace c = false := by
  rw [isWordInner_iff] at h
  rw [Bool.eq_false_iff, ne_eq, jsWhitespace_iff]
  omega

theorem toNat_asciiLower (c : Char) :
    (asciiLower c).toNat = if 65 ≤ c.toNat ∧ c.toNat ≤ 90 then c.toNat + 32 else c.toNat := by
  unfold asciiLower
  by_cases h : 65 ≤ c.toNat ∧ c.toNat ≤ 90
  · rw [if_pos (by simp [h.1, h.2]), if_pos h]
    exact toNat_charOfNat_valid (Or.inl (by omega))
  · rw [if_neg (by simpa [Bool.and_eq_true, decide_eq_true_eq] using h), if_neg h]

theorem asciiLower_fixes {c d : Char} (hd : ¬ (97 ≤ d.toNat ∧ d.toNat ≤ 122))
    (h : asciiLower c = d) : c = d := by
  unfold asciiLower at h
  by_cases hr : (65 ≤ c.toNat) && (c.toNat ≤ 90)
  · rw [if_pos hr] at h
    simp only [Bool.and_eq_true, decide_eq_true_eq] at hr
    have := congrArg Char.toNat h
    rw [toNat_charOfNat_valid (Or.inl (by omega))] at this
    omega
  · rwa [if_neg hr] at h

theorem asciiLower_idem (c : Char) : asciiLower (asciiLower c) = asciiLower c := by
  apply char_eq_of_toNat_eq
  rw [toNat_asciiLower, toNat_asciiLower]
  split_ifs <;> omega

theorem asciiLower_inner {c : Char} (h : isWordInner c = true) :
    isWordInner (asciiLower c) = true := by
  rw [isWordInner_iff] at h ⊢
  rw [toNat_asciiLower]
  split_ifs <;> omega

theorem asciiLower_letter {c : Char} (h : isAsciiLetter c = true) :
    isAsciiLetter (asciiLower c) = true := by
  rw [isAsciiLetter_iff] at h ⊢
  rw [toNat_asciiLower]
  split_ifs <;> omega

/-! ### Prefix / substring membership -/

theorem mem_of_listStartsWith :
    ∀ {pat s : List Char}, listStartsWith pat s = true → ∀ d ∈ pat, d ∈ s
  | [], _, _, d, hd => absurd hd (List.not_mem_nil d)
  | _ :: _, [], h, _, _ => by simp [listStartsWith] at h
  | p :: ps, c :: cs, h, d, hd => by
    simp only [listStartsWith, Bool.and_eq_true, beq_iff_eq] at h
    rcases List.mem_cons.mp hd with rfl | hmem
    · exact h.1 ▸ List.mem_cons_self _ _
    · exact List.mem_cons_of_mem _ (mem_of_listStartsWith h.2 d hmem)

theorem mem_of_listStartsWithCI :
    ∀ {pat s : List Char}, listStartsWithCI pat s = true → ∀ d ∈ pat, ∃ c ∈ s, d = asciiLower c
  | [], _, _, d, hd => absurd hd (List.not_mem_nil d)
  | _ :: _, [], h, _, _ => by simp [listStartsWithCI] at h
  | p :: ps, c :: cs, h, d, hd => by
    simp only [listStartsWithCI, Bool.and_eq_true, beq_iff_eq] at h
    rcases List.mem_cons.mp hd with rfl | hmem
    · exact ⟨c, List.mem_cons_self _ _, h.1⟩
    · obtain ⟨c', hc', he⟩ := mem_of_listStartsWithCI h.2 d hmem
      exact ⟨c', List.mem_cons_of_mem _ hc', he⟩

theorem mem_of_containsSub :
    ∀ {pat s : List Char}, containsSub pat s = true → ∀ d ∈ pat, d ∈ s
  | pat, [], h, d, hd => mem_of_listStartsWith h d hd
  | pat, c :: cs, h, d, hd => by
    simp only [containsSub, Bool.or_eq_true] at h
    rcases h with h | h
    · exact mem_of_listStartsWith h d hd
    · exact List.mem_cons_of_mem _ (mem_of_containsSub h d hd)

/-! ### Consequences of the strict-word predicate -/

theorem isLikely_parts {s : List Char} (h : isLikelyEnglishWord s = true) :
    (trim s).isEmpty = false ∧ (trim s).length ≤ 64 ∧ emailShaped (trim s) = false ∧
    urlShaped (trim s) = false ∧ (trim s).any jsWhitespace = false ∧
    (trim s).any isCJKChar = false ∧
    (trim s).any (fun c => isAsciiDigit c || (c == '_')) = false ∧
    wordShapeMatch (trim s) = true ∧
    containsSub doubleHyphen (trim s) = false ∧ containsSub doubleApos (trim s) = false := by
  simp only [isLikelyEnglishWord, Bool.and_eq_true, Bool.not_eq_true',
    decide_eq_true_eq] at h
  exact ⟨h.1.1.1.1.1.1.1.1.1, h.1.1.1.1.1.1.1.1.2, h.1.1.1.1.1.1.1.2,
    h.1.1.1.1.1.1.2, h.1.1.1.1.1.2, h.1.1.1.1.2, h.1.1.1.2, h.1.1.2, h.1.2, h.2⟩

theorem wordShape_destruct {t : List Char} (h : wordShapeMatch t = true) :
    ∃ c rest, t = c :: rest ∧ isAsciiLetter c = true ∧
      (rest = [] ∨
        ((∀ d ∈ rest.dropLast, isWordInner d = true) ∧
          ∃ d, rest.getLast? = some d ∧ isAsciiLetter d = true)) := by
  match t with
  | [] => simp [wordShapeMatch] at h
  | c :: rest =>
    simp only [wordShapeMatch, Bool.and_eq_true, Bool.or_eq_true, List.isEmpty_iff,
      List.all_eq_true] at h
    refine ⟨c, rest, rfl, h.1, ?_⟩
    rcases h.2 with hrest | ⟨hinner, hlast⟩
    · exact Or.inl hrest
    · refine Or.inr ⟨hinner, ?_⟩
      cases hl : rest.getLast? with
      | none => rw [hl] at hlast; simp at hlast
      | some d => rw [hl] at hlast; exact ⟨d, rfl, hlast⟩

theorem wordShape_of_destruct {t : List Char}
    (h : ∃ c rest, t = c :: rest ∧ isAsciiLetter c = true ∧
      (rest = [] ∨
        ((∀ d ∈ rest.dropLast, isWordInner d = true) ∧
          ∃ d, rest.getLast? = some d ∧ isAsciiLetter d = true))) :
    wordShapeMatch t = true := by
  obtain ⟨c, rest, rfl, hc, hrest⟩ := h
  simp only [wordShapeMatch, Bool.and_eq_true, Bool.or_eq_true, List.isEmpty_iff,
    List.all_eq_true]
  refine ⟨hc, ?_⟩
  rcases hrest with rfl | ⟨hinner, d, hd, hld⟩
  · exact Or.inl rfl
  · exact Or.inr ⟨hinner, by rw [hd]; exact hld⟩

theorem wordShape_all_inner {t : List Char} (h : wordShapeMatch t = true) :
    ∀ c ∈ t, isWordInner c = true := by
  obtain ⟨c, rest, rfl, hc, hrest⟩ := wordShape_destruct h
  intro x hx
  rcases List.mem_cons.mp hx with rfl | hmem
  · exact letter_isWordInner hc
  · rcases hrest with rfl | ⟨hinner, d, hd, hld⟩
    · exact absurd hmem (List.not_mem_nil x)
    · have hne : rest ≠ [] := by rintro rfl; simp at hd
      have : rest.dropLast ++ [rest.getLast hne] = rest := List.dropLast_append_getLast hne
      rw [← this] at hmem
      rcases List.mem_append.mp hmem with hm | hm
      · exact hinner x hm
      · have hx' : x = rest.getLast hne := by simpa using hm
        have hgl : rest.getLast? = some (rest.getLast hne) := List.getLast?_eq_getLast rest hne
        rw [hgl] at hd
        rw [hx', Option.some_inj.mp hd]
        exact letter_isWordInner hld

theorem isLikely_trim_all_inner {s : List Char} (h : isLikelyEnglishWord s = true) :
    ∀ c ∈ trim s, isWordInner c = true :=
  wordShape_all_inner (isLikely_parts h).2.2.2.2.2.2.2.1

/-- A character of `s` that is not JS whitespace and not in the word-inner
class forces the strict-word predicate to reject `s`. -/
theorem isLikely_false_of_bad_char {s : List Char} {c : Char} (hc : c ∈ s)
    (hws : jsWhitespace c = false) (hin : isWordInner c = false) :
    isLikelyEnglishWord s = false := by
  by_contra h
  rw [Bool.not_eq_false] at h
  have := isLikely_trim_all_inner h c (mem_trim hc hws)
  rw [hin] at this
  exact absurd this (by simp)

theorem email_has_at {s : List Char} (h : emailShaped s = true) : '@' ∈ s := by
  simp only [emailShaped, Bool.and_eq_true, beq_iff_eq] at h
  exact List.count_pos_iff.mp (by omega)

theorem mem_of_CI_fixed {pat s : List Char} {d : Char} (hp : listStartsWithCI pat s = true)
    (hd : d ∈ pat) (hrange : ¬ (97 ≤ d.toNat ∧ d.toNat ≤ 122)) : d ∈ s := by
  obtain ⟨c, hc, he⟩ := mem_of_listStartsWithCI hp d hd
  rwa [asciiLower_fixes hrange he.symm] at hc

theorem url_bad_char {s : List Char} (h : urlShaped s = true) :
    ∃ c ∈ s, jsWhitespace c = false ∧ isWordInner c = false := by
  simp only [urlShaped, Bool.or_eq_true] at h
  rcases h with ((h | h) | h) | h
  · exact ⟨':', mem_of_CI_fixed h (by decide) (by decide), by decide, by decide⟩
  · exact ⟨':', mem_of_CI_fixed h (by decide) (by decide), by decide, by decide⟩
  · exact ⟨'.', mem_of_CI_fixed h (by decide) (by decide), by decide, by decide⟩
  · exact ⟨':', mem_of_containsSub h ':' (by decide), by decide, by decide⟩

theorem digit_or_underscore_not_inner {c : Char}
    (h : (isAsciiDigit c || (c == '_')) = true) : isWordInner c = false := by
  simp only [Bool.or_eq_true, isAsciiDigit_iff, beq_iff_eq] at h
  have hn : (48 ≤ c.toNat ∧ c.toNat ≤ 57) ∨ c.toNat = 95 := by
    rcases h with h | rfl
    · exact Or.inl h
    · exact Or.inr rfl
  rw [Bool.eq_false_iff, ne_eq, isWordInner_iff]
  omega

theorem cjk_not_inner {c : Char} (h : isCJKChar c = true) : isWordInner c = false := by
  rw [isCJKChar_iff] at h
  rw [Bool.eq_false_iff, ne_eq, isWordInner_iff]
  omega

theorem isLikely_iff_spec (s : List Char) :
    isLikelyEnglishWord s = true ↔ strictWordSpec (trim s) := by
  constructor
  · intro h
    obtain ⟨h1, h2, h3, h4, h5, h6, h7, h8, h9, h10⟩ := isLikely_parts h
    have hne : trim s ≠ [] := by
      intro he
      rw [he] at h1
      simp at h1
    refine ⟨List.length_pos.mpr hne, h2, h3, h4, ?_, ?_, ?_, wordShape_destruct h8, h9, h10⟩
    · exact fun c hc => Bool.eq_false_iff.mpr (List.any_eq_false.mp h5 c hc)
    · exact fun c hc => Bool.eq_false_iff.mpr (List.any_eq_false.mp h6 c hc)
    · intro c hc
      have hp := List.any_eq_false.mp h7 c hc
      simp only [Bool.or_eq_true, beq_iff_eq, not_or] at hp
      exact ⟨Bool.eq_false_iff.mpr hp.1, hp.2⟩
  · rintro ⟨h1, h2, h3, h4, h5, h6, h7, h8, h9, h10⟩
    simp only [isLikelyEnglishWord, Bool.and_eq_true, Bool.not_eq_true', decide_eq_true_eq]
    refine ⟨⟨⟨⟨⟨⟨⟨⟨⟨?_, h2⟩, h3⟩, h4⟩, ?_⟩, ?_⟩, ?_⟩, wordShape_of_destruct h8⟩, h9⟩, h10⟩
    · rw [Bool.eq_false_iff, ne_eq, List.isEmpty_iff]
      intro he
      rw [he] at h1
      simp at h1
    · exact List.any_eq_false.mpr fun c hc => by simp [h5 c hc]
    · exact List.any_eq_false.mpr fun c hc => by simp [h6 c hc]
    · exact List.any_eq_false.mpr fun c hc => by
        simp [Bool.or_eq_true, beq_iff_eq, (h7 c hc).1, (h7 c hc).2]

/-- C3 (amended).  The predicate accepts `s` iff the trimmed `s` is a
strict word in the spec's sense (length 1–64, not email- or URL-shaped,
no whitespace, no CJK, no digits or underscore, a letter optionally
followed by internal hyphens/apostrophes ending in a letter, no doubled
hyphen or apostrophe).  Moreover the predicate is false for every string
containing digits, underscore or CJK code points, for every email- or
URL-shaped string, and for every string whose TRIMMED form contains
whitespace — but not for every string containing whitespace: leading and
trailing whitespace is trimmed away before the checks (see the
counterexample). -/
theorem strict_word_predicate_characterization (s : List Char) :
    (isLikelyEnglishWord s = true ↔ strictWordSpec (trim s)) ∧
    (s.any (fun c => isAsciiDigit c || (c == '_')) = true → isLikelyEnglishWord s = false) ∧
    (s.any isCJKChar = true → isLikelyEnglishWord s = false) ∧
    (emailShaped s = true → isLikelyEnglishWord s = false) ∧
    (urlShaped s = true → isLikelyEnglishWord s = false) ∧
    ((trim s).any jsWhitespace = true → isLikelyEnglishWord s = false) := by
  refine ⟨isLikely_iff_spec s, ?_, ?_, ?_, ?_, ?_⟩
  · intro h
    obtain ⟨c, hc, hp⟩ := List.any_eq_true.mp h
    exact isLikely_false_of_bad_char hc (digit_or_underscore_not_ws hp)
      (digit_or_underscore_not_inner hp)
  · intro h
    obtain ⟨c, hc, hp⟩ := List.any_eq_true.mp h
    exact isLikely_false_of_bad_char hc (cjk_not_ws hp) (cjk_not_inner hp)
  · intro h
    exact isLikely_false_of_bad_char (email_has_at h) (by decide) (by decide)
  · intro h
    obtain ⟨c, hc, hws, hin⟩ := url_bad_char h
    exact isLikely_false_of_bad_char hc hws hin
  · intro h
    by_contra hn
    rw [Bool.not_eq_false] at hn
    have h5 := (isLikely_parts hn).2.2.2.2.1
    rw [h] at h5
    exact absurd h5 (by decide)

/-- C3 counterexample: the claim asserts the predicate is false for every
string containing whitespace, but the source trims before checking, so
the string consisting of a space, the letter a, and a space — which
contains whitespace — is accepted. -/
theorem strict_word_whitespace_counterexample :
    isLikelyEnglishWord (" a ".toList) = true ∧ (" a ".toList).any jsWhitespace = true :=
  ⟨by decide, by decide⟩

/-- C3 witness: the amended theorem applied to a concrete digit-bearing
string. -/
theorem strict_word_predicate_characterization_witness :
    ("a1".toList).any (fun c => isAsciiDigit c || (c == '_')) = true ∧
    isLikelyEnglishWord ("a1".toList) = false :=
  ⟨by decide, (strict_word_predicate_characterization ("a1".toList)).2.1 (by decide)⟩

/-! ### C2: derived transport timeout -/

/-- C2: the source computes `Math.max(1, Math.ceil(ms / 50000))`, so at
the default configuration of 50000 ms the transport timeout is 1 second,
not the 50 seconds the claim derives via a division by 1000.  The
division by 50000 contradicts the source's own comment (line 81: convert
the millisecond option to seconds for the transport timeout). -/
theorem timeout_divisor_code_bug :
    WORD_CHECK_TIMEOUT_S (WORD_CHECK_TIMEOUT_MS (some 50000)) = 1 ∧
    claimedTransportTimeoutS 50000 = 50 ∧
    WORD_CHECK_TIMEOUT_S 50000 ≠ claimedTransportTimeoutS 50000 :=
  ⟨by decide, by decide, by decide⟩

/-! ### C7: write-layer failure handling -/

/-- C7 counterexample: on the per-word Eudic path a transport rejection
ends as an error payload, not a masked success — the adapter synthesizes
a success payload, but the `addWord` dispatcher re-checks
`statusCode === 201` on it and reports the credential error. -/
theorem eudic_per_word_transport_counterexample :
    addWordEudicDispatch WriteTransport.rejected ("test".toList) =
      WritePayload.error eudicErrMsg := by decide

/-- C7 (amended): Youdao and Shanbay convert a transport rejection into a
synthetic success payload carrying the local-fallback message, and report
a structurally clear rejection (non-zero `code` body field, wrong status
code) as a genuine failure with a provider-specific hint.  The per-word
Eudic adapter also synthesizes a success payload on rejection, but the
`addWord` dispatcher re-checks `statusCode === 201` on the callback value,
so the composed per-word Eudic write reports a transport failure as the
credential error instead of a masked success. -/
theorem write_failure_handling (w : List Char) (res : HttpRes) :
    (addWordYoudao WriteTransport.rejected w = WritePayload.result (addFallbackMsg w)) ∧
    (addWordShanbay WriteTransport.rejected w = WritePayload.result (addFallbackMsg w)) ∧
    (addWordEudic WriteTransport.rejected w = EudicCbArg.fallbackPayload (addFallbackMsg w)) ∧
    (jsStrictEqZero (fieldD res.data ("code".toList)) = false →
      addWordYoudao (WriteTransport.fulfilled res) w = WritePayload.error youdaoErrMsg) ∧
    (res.statusCode ≠ some 200 →
      addWordShanbay (WriteTransport.fulfilled res) w = WritePayload.error shanbayErrMsg) ∧
    (res.statusCode ≠ some 201 →
      addWordEudicDispatch (WriteTransport.fulfilled res) w = WritePayload.error eudicErrMsg) ∧
    (addWordEudicDispatch WriteTransport.rejected w = WritePayload.error eudicErrMsg) := by
  refine ⟨rfl, rfl, rfl, ?_, ?_, ?_, rfl⟩
  · intro h
    simp only [addWordYoudao]
    rw [h]
    simp
  · intro h
    simp [addWordShanbay, beq_iff_eq, h]
  · intro h
    simp [addWordEudicDispatch, addWordEudic, beq_iff_eq, h]

/-- C7 witness: the amended theorem at a concrete word and a concrete
500-status response. -/
theorem write_failure_handling_witness :
    addWordYoudao WriteTransport.rejected ("test".toList) =
      WritePayload.result (addFallbackMsg ("test".toList)) ∧
    addWordShanbay (WriteTransport.fulfilled ⟨some 500, JValue.jnull⟩) ("test".toList) =
      WritePayload.error shanbayErrMsg :=
  ⟨(write_failure_handling ("test".toList) ⟨some 500, JValue.jnull⟩).1,
   (write_failure_handling ("test".toList) ⟨some 500, JValue.jnull⟩).2.2.2.2.1 (by decide)⟩

/-! ### C8: strictly serial per-word writes -/

theorem addWordsInSeriesGo_spec (outcome : List Char → WriteOutcome)
    (ws : List (List Char)) :
    ∀ (succ : List (List Char)) (failed : List (List Char × List Char)),
      addWordsInSeriesGo outcome succ failed ws =
        { success := succ ++ ws.filter (fun w => (outcome w).ok),
          failed := failed ++ (ws.filter (fun w => !(outcome w).ok)).map
            (fun w => (w, if (outcome w).message.isEmpty then ("未知原因".toList)
                          else (outcome w).message)) } := by
  induction ws with
  | nil =>
    intro succ failed
    simp [addWordsInSeriesGo]
  | cons w ws ih =>
    intro succ failed
    by_cases h : (outcome w).ok
    · simp only [addWordsInSeriesGo, h, if_true, ih, List.filter_cons]
      simp [h]
    · simp only [addWordsInSeriesGo, h, if_false, ih, List.filter_cons]
      simp [h]

/-- C8: for non-batch providers the write is strictly serial.  The
aggregated report lists successes, and the first components of the
failures, in input order (they are order-preserving filters of the word
list); the trace of transport events issues one request per word in list
order; and the settlement of word `n` strictly precedes the issuing of
word `n+1` in the event order (positions `2n+1` and `2n+2` of the
trace). -/
theorem serial_write_order (outcome : List Char → WriteOutcome) (words : List (List Char)) :
    ((addWordsInSeries outcome words).success = words.filter (fun w => (outcome w).ok)) ∧
    ((addWordsInSeries outcome words).failed.map Prod.fst =
      words.filter (fun w => !(outcome w).ok)) ∧
    ((seriesEvents outcome words).filterMap
        (fun e => match e with | WriteEv.issue w => some w | _ => none) = words) ∧
    (∀ n w wn, words[n]? = some w → words[n+1]? = some wn →
      (seriesEvents outcome words)[2*n+1]? = some (WriteEv.settle w (outcome w).ok) ∧
      (seriesEvents outcome words)[2*n+2]? = some (WriteEv.issue wn)) := by
  refine ⟨?_, ?_, ?_, ?_⟩
  · rw [addWordsInSeries, addWordsInSeriesGo_spec]
    simp
  · rw [addWordsInSeries, addWordsInSeriesGo_spec]
    simp only [List.map_map, List.nil_append]
    have : (Prod.fst ∘ fun w => ((w : List Char),
        if (outcome w).message.isEmpty then ("未知原因".toList) else (outcome w).message)) =
        fun w => w := rfl
    rw [this, List.map_id']
  · induction words with
    | nil => rfl
    | cons w ws ih => simp [seriesEvents, ih]
  · intro n
    induction words generalizing n with
    | nil => intro w wn hw _; simp at hw
    | cons x ws ih =>
      intro w wn hw hwn
      cases n with
      | zero =>
        simp only [List.getElem?_cons_zero, Option.some_inj] at hw
        subst hw
        simp only [Nat.zero_add, List.getElem?_cons_succ, List.getElem?_cons_zero] at hwn ⊢
        cases ws with
        | nil => simp at hwn
        | cons y ys =>
          simp only [List.getElem?_cons_zero, Option.some_inj] at hwn
          subst hwn
          constructor
          · rfl
          · rfl
      | succ m =>
        simp only [List.getElem?_cons_succ] at hw hwn
        have hrec := ih m w wn hw hwn
        have e1 : 2 * (m + 1) + 1 = 2 * m + 1 + 1 + 1 := by ring
        have e2 : 2 * (m + 1) + 2 = 2 * m + 2 + 1 + 1 := by ring
        rw [e1, e2]
        simpa [seriesEvents, List.getElem?_cons_succ] using hrec

/-- C8 witness: the theorem at a concrete two-word list, an outcome that
fails the first word, and index 0. -/
theorem serial_write_order_witness :
    (seriesEvents (fun w => ⟨w == ("b".toList), w⟩) [("a".toList), ("b".toList)])[1]? =
      some (WriteEv.settle ("a".toList) false) ∧
    (seriesEvents (fun w => ⟨w == ("b".toList), w⟩) [("a".toList), ("b".toList)])[2]? =
      some (WriteEv.issue ("b".toList)) := by
  have h := (serial_write_order (fun w => ⟨w == ("b".toList), w⟩)
    [("a".toList), ("b".toList)]).2.2.2 0 ("a".toList) ("b".toList) (by decide) (by decide)
  simpa using h

/-! ### Properties of `uniqueStable` -/

theorem uniqueStableGo_sublist : ∀ (l : List (List Char)) (seen : List (List Char)),
    List.Sublist (uniqueStableGo seen l) l
  | [], _ => List.Sublist.refl []
  | x :: xs, seen => by
    by_cases h : x ∈ seen
    · simp only [uniqueStableGo, if_pos h]
      exact (uniqueStableGo_sublist xs seen).cons x
    · simp only [uniqueStableGo, if_neg h]
      exact (uniqueStableGo_sublist xs (x :: seen)).cons₂ x

theorem mem_uniqueStableGo {x : List Char} :
    ∀ {l seen : List (List Char)}, x ∈ uniqueStableGo seen l → x ∈ l ∧ x ∉ seen
  | [], seen, h => absurd h (List.not_mem_nil x)
  | y :: ys, seen, h => by
    by_cases hy : y ∈ seen
    · rw [uniqueStableGo, if_pos hy] at h
      obtain ⟨h1, h2⟩ := mem_uniqueStableGo h
      exact ⟨List.mem_cons_of_mem y h1, h2⟩
    · rw [uniqueStableGo, if_neg hy] at h
      rcases List.mem_cons.mp h with rfl | hmem
      · exact ⟨List.mem_cons_self x ys, hy⟩
      · obtain ⟨h1, h2⟩ := mem_uniqueStableGo hmem
        refine ⟨List.mem_cons_of_mem y h1, fun hx => h2 (List.mem_cons_of_mem y hx)⟩

theorem uniqueStableGo_nodup : ∀ (l seen : List (List Char)), (uniqueStableGo seen l).Nodup
  | [], _ => List.nodup_nil
  | y :: ys, seen => by
    by_cases hy : y ∈ seen
    · rw [uniqueStableGo, if_pos hy]
      exact uniqueStableGo_nodup ys seen
    · rw [uniqueStableGo, if_neg hy]
      refine List.nodup_cons.mpr ⟨fun hmem => ?_, uniqueStableGo_nodup ys (y :: seen)⟩
      exact (mem_uniqueStableGo hmem).2 (List.mem_cons_self y seen)

theorem uniqueStableGo_pairwise :
    ∀ (l seen : List (List Char)),
      (uniqueStableGo seen l).Pairwise (fun a b => l.indexOf a < l.indexOf b)
  | [], _ => List.Pairwise.nil
  | x :: xs, seen => by
    have shift : ∀ (a : List Char), a ∈ xs → a ≠ x →
        (x :: xs).indexOf a = xs.indexOf a + 1 := by
      intro a _ ha
      have hne : (x == a) = false := beq_eq_false_iff_ne.mpr (Ne.symm ha)
      rw [List.indexOf_cons, hne, Bool.cond_false]
    by_cases hx : x ∈ seen
    · rw [uniqueStableGo, if_pos hx]
      refine (uniqueStableGo_pairwise xs seen).imp_of_mem ?_
      intro a b ha hb hr
      obtain ⟨ha1, ha2⟩ := mem_uniqueStableGo ha
      obtain ⟨hb1, hb2⟩ := mem_uniqueStableGo hb
      have hax : a ≠ x := fun he => ha2 (he ▸ hx)
      have hbx : b ≠ x := fun he => hb2 (he ▸ hx)
      rw [shift a ha1 hax, shift b hb1 hbx]
      omega
    · rw [uniqueStableGo, if_neg hx]
      refine List.pairwise_cons.mpr ⟨?_, ?_⟩
      · intro b hb
        obtain ⟨hb1, hb2⟩ := mem_uniqueStableGo hb
        have hbx : b ≠ x := fun he => hb2 (he ▸ List.mem_cons_self x seen)
        have hself : (x :: xs).indexOf x = 0 := by
          rw [List.indexOf_cons]
          simp
        rw [hself, shift b hb1 hbx]
        omega
      · refine (uniqueStableGo_pairwise xs (x :: seen)).imp_of_mem ?_
        intro a b ha hb hr
        obtain ⟨ha1, ha2⟩ := mem_uniqueStableGo ha
        obtain ⟨hb1, hb2⟩ := mem_uniqueStableGo hb
        have hax : a ≠ x := fun he => ha2 (he ▸ List.mem_cons_self x seen)
        have hbx : b ≠ x := fun he => hb2 (he ▸ List.mem_cons_self x seen)
        rw [shift a ha1 hax, shift b hb1 hbx]
        omega

/-! ### C4: invariants of the resolved words list -/

/-- C4: for every outcome the fulfilled-branch handler resolves with,
every entry of `words` satisfies the strict-word predicate, the entries
are pairwise distinct, their order is first-seen order — their
first-occurrence indices in the validated candidate sequence are strictly
increasing — and the length is at most the configured maximum (`maxAdd`,
default 200). -/
theorem extraction_words_invariant (sc : Nat) (data : JValue) (jp : Option JValue)
    (maxAdd : Nat) :
    (∀ w ∈ (llmSuccessOutcome sc data jp maxAdd).words, isLikelyEnglishWord w = true) ∧
    ((llmSuccessOutcome sc data jp maxAdd).words).Nodup ∧
    ((llmSuccessOutcome sc data jp maxAdd).words).length ≤ maxAdd ∧
    ((llmSuccessOutcome sc data jp maxAdd).words).Pairwise (fun a b =>
      (((selectCandidates jp (trim (extractArkContent data))).map
          (fun v => trim (jsToString v))).filter isLikelyEnglishWord).indexOf a <
      (((selectCandidates jp (trim (extractArkContent data))).map
          (fun v => trim (jsToString v))).filter isLikelyEnglishWord).indexOf b) := by
  have hw : (llmSuccessOutcome sc data jp maxAdd).words =
      (uniqueStableGo [] (((selectCandidates jp (trim (extractArkContent data))).map
        (fun v => trim (jsToString v))).filter isLikelyEnglishWord)).take maxAdd := rfl
  rw [hw]
  refine ⟨?_, ?_, ?_, ?_⟩
  · intro w hmem
    have h1 := List.mem_of_mem_take hmem
    have h2 := (mem_uniqueStableGo h1).1
    exact (List.mem_filter.mp h2).2
  · exact (List.take_sublist _ _).nodup (uniqueStableGo_nodup _ _)
  · exact List.length_take_le _ _
  · exact (uniqueStableGo_pairwise _ _).sublist (List.take_sublist _ _)

/-- C4 witness: the theorem at a concrete candidate array; the first
surviving word is a strict word. -/
theorem extraction_words_invariant_witness :
    isLikelyEnglishWord ("Paris".toList) = true :=
  (extraction_words_invariant 200 JValue.jnull
    (some (JValue.jarr [JValue.jstr ("Paris".toList), JValue.jstr ("x1".toList)])) 200).1
    ("Paris".toList) (by decide)

/-! ### C5: the ok flag -/

/-- C5: in the outcome of a completed HTTP exchange, `ok` is true iff the
status code is in 200..299, independently of how many words survived; in
particular a 2xx response whose validated list is empty still has
`ok = true` (here: a 204 whose parsed content is an empty array). -/
theorem extraction_ok_iff_2xx :
    (∀ (sc : Nat) (data : JValue) (jp : Option JValue) (maxAdd : Nat),
      ((llmSuccessOutcome sc data jp maxAdd).ok = true ↔ (200 ≤ sc ∧ sc < 300))) ∧
    ((llmSuccessOutcome 204 JValue.jnull (some (JValue.jarr [])) 200).ok = true ∧
     (llmSuccessOutcome 204 JValue.jnull (some (JValue.jarr [])) 200).words = []) := by
  refine ⟨?_, by decide, by decide⟩
  intro sc data jp maxAdd
  simp [llmSuccessOutcome]

/-! ### C6: configuration guard and transport rejection -/

/-- C6: the extractor is a total function of its configuration and of how
the transport settles (it always resolves).  With any of the three LLM
options missing it resolves with the sentinel outcome, independently of
the transport (no network call can influence the result); on transport
rejection it resolves with `ok = false`, empty words, the status code
taken from the error's response when present (else 0), and an error
message. -/
theorem extractor_config_and_rejection (cfg : LLMConfig) :
    ((cfg.volcano_api_key.isEmpty || cfg.volcano_endpoint.isEmpty ||
        cfg.volcano_model.isEmpty) = true →
      (∀ t, extractWordsByLLMVolcano cfg t =
        { ok := false, statusCode := 0, words := [], errorMessage := none }) ∧
      (∀ t t', extractWordsByLLMVolcano cfg t = extractWordsByLLMVolcano cfg t')) ∧
    ((cfg.volcano_api_key.isEmpty || cfg.volcano_endpoint.isEmpty ||
        cfg.volcano_model.isEmpty) = false →
      ∀ (esc : Option Nat) (emsg : List Char),
        extractWordsByLLMVolcano cfg (LLMTransport.rejected esc emsg) =
          { ok := false, statusCode := esc.getD 0, words := [],
            errorMessage := some emsg }) := by
  constructor
  · intro h
    constructor
    · intro t
      simp [extractWordsByLLMVolcano, h]
    · intro t t'
      simp [extractWordsByLLMVolcano, h]
  · intro h
    intro esc emsg
    simp [extractWordsByLLMVolcano, h]

/-- C6 witness: a configuration with an empty API key yields the sentinel
for an arbitrary transport, and a complete configuration maps a rejection
carrying status 503 to the corresponding outcome. -/
theorem extractor_config_and_rejection_witness :
    extractWordsByLLMVolcano ⟨[], ("e".toList), ("m".toList), 200⟩
      (LLMTransport.rejected (some 503) ("boom".toList)) =
      { ok := false, statusCode := 0, words := [], errorMessage := none } ∧
    extractWordsByLLMVolcano ⟨("k".toList), ("e".toList), ("m".toList), 200⟩
      (LLMTransport.rejected (some 503) ("boom".toList)) =
      { ok := false, statusCode := 503, words := [],
        errorMessage := some ("boom".toList) } :=
  ⟨((extractor_config_and_rejection ⟨[], ("e".toList), ("m".toList), 200⟩).1 (by decide)).1 _,
   (extractor_config_and_rejection ⟨("k".toList), ("e".toList), ("m".toList), 200⟩).2
     (by decide) (some 503) ("boom".toList)⟩

/-! ### C10: case-sensitive dedup -/

/-- C10: deduplication of extracted candidates is case-sensitive — any
two distinct strings both survive `uniqueStable`, and through the whole
pipeline two candidates differing only in letter case both appear in the
final words list, each validated by the (case-insensitive) strict-word
predicate. -/
theorem dedup_case_sensitive :
    (∀ x y : List Char, x ≠ y → uniqueStable [x, y] = [x, y]) ∧
    isLikelyEnglishWord ("Paris".toList) = true ∧
    isLikelyEnglishWord ("paris".toList) = true ∧
    (llmSuccessOutcome 200 JValue.jnull
      (some (JValue.jarr [JValue.jstr ("Paris".toList), JValue.jstr ("paris".toList)]))
      200).words = [("Paris".toList), ("paris".toList)] := by
  refine ⟨?_, by decide, by decide, by decide⟩
  intro x y hxy
  simp [uniqueStable, uniqueStableGo, (Ne.symm hxy)]

/-- C10 witness: the dedup conjunct applied to the concrete pair. -/
theorem dedup_case_sensitive_witness :
    uniqueStable [("Paris".toList), ("paris".toList)] =
      [("Paris".toList), ("paris".toList)] :=
  (dedup_case_sensitive).1 ("Paris".toList) ("paris".toList) (by decide)

/-! ### C1: candidate-selection dispatch -/

/-- C1 (amended): when the LLM's textual output parses as a JSON array it
is the candidate list; when it parses as an object with an `add` array
that array is; any OTHER successfully parsed JSON shape yields an empty
candidate list; only a JSON parse failure falls back to the Local
Fallback Tokenizer, run over the LLM's textual output (the text extracted
from the response body, trimmed — not the raw HTTP response). -/
theorem candidate_selection_dispatch :
    (∀ (content : List Char) (xs : List JValue),
      selectCandidates (some (JValue.jarr xs)) content = xs) ∧
    (∀ (content : List Char) (fields : List (List Char × JValue)) (ys : List JValue),
      lookupField fields ("add".toList) = some (JValue.jarr ys) →
      selectCandidates (some (JValue.jobj fields)) content = ys) ∧
    (∀ (content : List Char) (v : JValue), (∀ zs, v ≠ JValue.jarr zs) →
      (∀ fs, v = JValue.jobj fs →
        ∀ zs, lookupField fs ("add".toList) ≠ some (JValue.jarr zs)) →
      selectCandidates (some v) content = []) ∧
    (∀ content : List Char,
      selectCandidates none content = (localExtractWords content).map JValue.jstr) ∧
    (∀ (sc : Nat) (data : JValue) (jp : Option JValue) (maxAdd : Nat),
      (llmSuccessOutcome sc data jp maxAdd).words =
        cleanCandidates (selectCandidates jp (trim (extractArkContent data))) maxAdd) := by
  refine ⟨fun _ _ => rfl, ?_, ?_, fun _ => rfl, fun _ _ _ _ => rfl⟩
  · intro content fields ys h
    simp only [selectCandidates]
    rw [h]
  · intro content v hna hno
    cases v with
    | jnull => rfl
    | jbool b => rfl
    | jnum lit => rfl
    | jstr s => rfl
    | jarr zs => exact absurd rfl (hna zs)
    | jobj fs =>
      simp only [selectCandidates]
      cases hl : lookupField fs ("add".toList) with
      | none => rfl
      | some w =>
        cases w with
        | jarr zs => exact absurd hl (hno fs rfl zs)
        | jnull => rfl
        | jbool b => rfl
        | jnum lit => rfl
        | jstr s => rfl
        | jobj fs2 => rfl

/-- C1 counterexample: the LLM text parses as an object without an `add`
array; the source yields an empty candidate (and words) list, while the
claim requires the tokenizer fallback over the LLM's text, which here is
non-empty. -/
theorem candidate_selection_counterexample :
    (llmSuccessOutcome 200
      (JValue.jobj [(("choices".toList),
        JValue.jarr [JValue.jobj [(("message".toList),
          JValue.jobj [(("content".toList),
            JValue.jstr ("\x7b\"skip\": [\"hello\"]\x7d".toList))])]])])
      (some (JValue.jobj [(("skip".toList), JValue.jarr [JValue.jstr ("hello".toList)])]))
      200).words = [] ∧
    localExtractWords (trim (extractArkContent (JValue.jobj [(("choices".toList),
      JValue.jarr [JValue.jobj [(("message".toList),
        JValue.jobj [(("content".toList),
          JValue.jstr ("\x7b\"skip\": [\"hello\"]\x7d".toList))])]])])))
      = [("skip".toList), ("hello".toList)] ∧
    ([] : List (List Char)) ≠ [("skip".toList), ("hello".toList)] :=
  ⟨by decide, by decide, by decide⟩

/-- C1 witness: the object-with-add branch of the amended theorem at a
concrete field list. -/
theorem candidate_selection_dispatch_witness :
    selectCandidates (some (JValue.jobj [(("add".toList),
      JValue.jarr [JValue.jstr ("hello".toList)])])) [] =
      [JValue.jstr ("hello".toList)] :=
  candidate_selection_dispatch.2.1 [] [(("add".toList),
    JValue.jarr [JValue.jstr ("hello".toList)])] [JValue.jstr ("hello".toList)] rfl

/-! ### C9: tokenizer structure -/

theorem truncAtLastLetter_isPrefix (run : List Char) :
    truncAtLastLetter run <+: run := by
  unfold truncAtLastLetter
  have h : (run.reverse.dropWhile (fun c => !isAsciiLetter c)) <:+ run.reverse :=
    List.dropWhile_suffix _
  have := List.reverse_prefix.mpr h
  simpa using this

theorem truncAtLastLetter_getLast {run : List Char}
    (h : truncAtLastLetter run ≠ []) :
    ∃ d, (truncAtLastLetter run).getLast? = some d ∧ isAsciiLetter d = true := by
  unfold truncAtLastLetter at *
  set Y := run.reverse.dropWhile (fun c => !isAsciiLetter c) with hY
  have hYne : Y ≠ [] := by
    intro he
    rw [he] at h
    simp at h
  obtain ⟨c, cs, hcs⟩ := List.exists_cons_of_ne_nil hYne
  have hlet : (!isAsciiLetter c) = false := by
    have := List.head?_dropWhile_not (fun c => !isAsciiLetter c) run.reverse
    rw [← hY, hcs] at this
    simpa using this
  refine ⟨c, ?_, by simpa using hlet⟩
  rw [List.getLast?_reverse, hcs]
  rfl

theorem truncAtLastLetter_eq_self {run : List Char}
    (h : ∃ d, run.getLast? = some d ∧ isAsciiLetter d = true) :
    truncAtLastLetter run = run := by
  obtain ⟨d, hd, hld⟩ := h
  unfold truncAtLastLetter
  have hrev : run.reverse.head? = some d := by rw [List.head?_reverse, hd]
  obtain ⟨cs, hcs⟩ : ∃ cs, run.reverse = d :: cs := by
    cases hr : run.reverse with
    | nil => rw [hr] at hrev; simp at hrev
    | cons x xs =>
      rw [hr] at hrev
      simp only [List.head?_cons, Option.some_inj] at hrev
      exact ⟨xs, by rw [hrev]⟩
  rw [hcs, List.dropWhile_cons_of_neg (by simp [hld]), ← hcs, List.reverse_reverse]

theorem innerBlocksCore_facts (s : List Char) :
    (∀ c ∈ (innerBlocksCore s).1, isWordInner c = true) ∧
    (∀ b ∈ (innerBlocksCore s).2, b ≠ [] ∧ ∀ c ∈ b, isWordInner c = true) := by
  induction s with
  | nil => exact ⟨by simp [innerBlocksCore], by simp [innerBlocksCore]⟩
  | cons c rest ih =>
    by_cases hc : isWordInner c
    · rw [innerBlocksCore, if_pos hc]
      refine ⟨?_, ih.2⟩
      intro x hx
      rcases List.mem_cons.mp hx with rfl | hmem
      · exact hc
      · exact ih.1 x hmem
    · rw [innerBlocksCore, if_neg hc]
      refine ⟨by simp, ?_⟩
      by_cases he : (innerBlocksCore rest).1.isEmpty
      · rw [if_pos he]
        exact ih.2
      · rw [if_neg he]
        intro b hb
        rcases List.mem_cons.mp hb with rfl | hmem
        · exact ⟨by simpa [List.isEmpty_iff] using he, ih.1⟩
        · exact ih.2 b hmem

theorem innerBlocks_facts {s : List Char} :
    ∀ b ∈ innerBlocks s, b ≠ [] ∧ ∀ c ∈ b, isWordInner c = true := by
  intro b hb
  unfold innerBlocks at hb
  by_cases he : (innerBlocksCore s).1.isEmpty
  · rw [if_pos he] at hb
    exact (innerBlocksCore_facts s).2 b hb
  · rw [if_neg he] at hb
    rcases List.mem_cons.mp hb with rfl | hmem
    · exact ⟨by simpa [List.isEmpty_iff] using he, (innerBlocksCore_facts s).1⟩
    · exact (innerBlocksCore_facts s).2 b hmem

theorem innerBlocksCore_append_inner {w : List Char} (s : List Char)
    (hw : ∀ c ∈ w, isWordInner c = true) :
    innerBlocksCore (w ++ s) = (w ++ (innerBlocksCore s).1, (innerBlocksCore s).2) := by
  induction w with
  | nil => simp
  | cons c cs ih =>
    have hc : isWordInner c = true := hw c (List.mem_cons_self c cs)
    have ih' := ih fun x hx => hw x (List.mem_cons_of_mem c hx)
    rw [List.cons_append, innerBlocksCore, if_pos hc, ih']
    simp

theorem innerBlocksCore_space (rest : List Char) :
    innerBlocksCore (' ' :: rest) = ([], innerBlocks rest) := by
  rw [innerBlocksCore, if_neg (by decide)]
  rfl

theorem roughTokens_good {s : List Char} : ∀ t ∈ roughTokens s, goodToken t := by
  intro t ht
  unfold roughTokens at ht
  obtain ⟨b, hb, hfb⟩ := List.mem_filterMap.mp ht
  obtain ⟨hbne, hbin⟩ := innerBlocks_facts b hb
  unfold blockToken at hfb
  by_cases hte : (truncAtLastLetter (b.dropWhile (fun c => !isAsciiLetter c))).isEmpty
  · rw [if_pos hte] at hfb
    exact absurd hfb (by simp)
  · rw [if_neg hte] at hfb
    obtain rfl := Option.some_inj.mp hfb
    set D := b.dropWhile (fun c => !isAsciiLetter c) with hD
    have htne : truncAtLastLetter D ≠ [] := by simpa [List.isEmpty_iff] using hte
    have hpre : truncAtLastLetter D <+: D := truncAtLastLetter_isPrefix D
    refine ⟨htne, ?_, ?_, truncAtLastLetter_getLast htne⟩
    · intro c hc
      exact hbin c ((List.dropWhile_sublist _).subset (hpre.sublist.subset hc))
    · obtain ⟨c, cs, hcs⟩ := List.exists_cons_of_ne_nil htne
      obtain ⟨u, hu⟩ := hpre
      have hDh : D.head? = some c := by rw [← hu, hcs]; rfl
      have hlet := List.head?_dropWhile_not (fun c => !isAsciiLetter c) b
      rw [← hD, hDh] at hlet
      exact ⟨c, by rw [hcs]; rfl, by simpa using hlet⟩

theorem blockToken_of_good {w : List Char} (hw : goodToken w) :
    blockToken w = some w := by
  unfold blockToken
  obtain ⟨hne, hin, ⟨c, hc, hcl⟩, hlast⟩ := hw
  obtain ⟨cs, rfl⟩ : ∃ cs, w = c :: cs := by
    cases w with
    | nil => exact absurd rfl hne
    | cons x xs =>
      simp only [List.head?_cons, Option.some_inj] at hc
      exact ⟨xs, by rw [hc]⟩
  have hdw : (c :: cs).dropWhile (fun c => !isAsciiLetter c) = c :: cs :=
    List.dropWhile_cons_of_neg (by simp [hcl])
  simp only [hdw, truncAtLastLetter_eq_self hlast]
  rw [if_neg (by simp)]

theorem roughTokens_append_good {w rest : List Char} (hw : goodToken w) :
    roughTokens (w ++ ' ' :: rest) = w :: roughTokens rest := by
  have hcore : innerBlocksCore (w ++ ' ' :: rest) = (w, innerBlocks rest) := by
    rw [innerBlocksCore_append_inner (' ' :: rest) hw.2.1, innerBlocksCore_space]
    simp
  have hblocks : innerBlocks (w ++ ' ' :: rest) = w :: innerBlocks rest := by
    unfold innerBlocks
    rw [hcore]
    simp only
    rw [if_neg (by simpa [List.isEmpty_iff] using hw.1)]
    rfl
  unfold roughTokens
  rw [hblocks, List.filterMap_cons, blockToken_of_good hw]

theorem roughTokens_single_good {w : List Char} (hw : goodToken w) :
    roughTokens w = [w] := by
  have hcore : innerBlocksCore w = (w, []) := by
    have := innerBlocksCore_append_inner [] hw.2.1
    simpa [innerBlocksCore] using this
  have hblocks : innerBlocks w = [w] := by
    unfold innerBlocks
    rw [hcore]
    simp only
    rw [if_neg (by simpa [List.isEmpty_iff] using hw.1)]
  unfold roughTokens
  rw [hblocks, List.filterMap_cons, blockToken_of_good hw]
  rfl

theorem roughTokens_joinSpace : ∀ {out : List (List Char)},
    (∀ w ∈ out, goodToken w) → roughTokens (joinSpace out) = out
  | [], _ => rfl
  | [w], h => by
    rw [joinSpace]
    exact roughTokens_single_good (h w (List.mem_cons_self w []))
  | w :: v :: rest, h => by
    rw [show joinSpace (w :: v :: rest) = w ++ ' ' :: joinSpace (v :: rest) from rfl,
      roughTokens_append_good (h w (List.mem_cons_self w (v :: rest))),
      roughTokens_joinSpace fun x hx => h x (List.mem_cons_of_mem w hx)]

theorem mem_localExtractGo {w : List Char} :
    ∀ {ts seen : List (List Char)}, w ∈ localExtractGo seen ts →
      (∃ t ∈ ts, w = normalizeWord t) ∧ isLikelyEnglishWord w = true ∧ w ≠ [] ∧ w ∉ seen
  | [], seen, h => absurd h (List.not_mem_nil w)
  | t :: ts, seen, h => by
    simp only [localExtractGo] at h
    by_cases h1 : (normalizeWord t).isEmpty
    · rw [if_pos h1] at h
      obtain ⟨⟨u, hu, he⟩, h2, h3, h4⟩ := mem_localExtractGo h
      exact ⟨⟨u, List.mem_cons_of_mem t hu, he⟩, h2, h3, h4⟩
    · rw [if_neg h1] at h
      by_cases h2 : !isLikelyEnglishWord (normalizeWord t)
      · rw [if_pos h2] at h
        obtain ⟨⟨u, hu, he⟩, ha, hb, hc⟩ := mem_localExtractGo h
        exact ⟨⟨u, List.mem_cons_of_mem t hu, he⟩, ha, hb, hc⟩
      · rw [if_neg h2] at h
        by_cases h3 : normalizeWord t ∈ seen
        · rw [if_pos h3] at h
          obtain ⟨⟨u, hu, he⟩, ha, hb, hc⟩ := mem_localExtractGo h
          exact ⟨⟨u, List.mem_cons_of_mem t hu, he⟩, ha, hb, hc⟩
        · rw [if_neg h3] at h
          rcases List.mem_cons.mp h with rfl | hmem
          · refine ⟨⟨t, List.mem_cons_self t ts, rfl⟩, ?_, ?_, h3⟩
            · simpa using h2
            · simpa [List.isEmpty_iff] using h1
          · obtain ⟨⟨u, hu, he⟩, ha, hb, hc⟩ := mem_localExtractGo hmem
            refine ⟨⟨u, List.mem_cons_of_mem t hu, he⟩, ha, hb, fun hs => hc ?_⟩
            exact List.mem_cons_of_mem _ hs

theorem localExtractGo_nodup : ∀ (ts seen : List (List Char)),
    (localExtractGo seen ts).Nodup
  | [], _ => List.nodup_nil
  | t :: ts, seen => by
    simp only [localExtractGo]
    by_cases h1 : (normalizeWord t).isEmpty
    · rw [if_pos h1]
      exact localExtractGo_nodup ts seen
    · rw [if_neg h1]
      by_cases h2 : !isLikelyEnglishWord (normalizeWord t)
      · rw [if_pos h2]
        exact localExtractGo_nodup ts seen
      · rw [if_neg h2]
        by_cases h3 : normalizeWord t ∈ seen
        · rw [if_pos h3]
          exact localExtractGo_nodup ts seen
        · rw [if_neg h3]
          refine List.nodup_cons.mpr ⟨fun hmem => ?_, localExtractGo_nodup ts _⟩
          exact (mem_localExtractGo hmem).2.2.2 (List.mem_cons_self _ _)

theorem localExtractGo_eq_self : ∀ {l seen : List (List Char)},
    (∀ w ∈ l, normalizeWord w = w ∧ w ≠ [] ∧ isLikelyEnglishWord w = true ∧ w ∉ seen) →
    l.Nodup → localExtractGo seen l = l
  | [], _, _, _ => rfl
  | w :: ws, seen, h, hnd => by
    obtain ⟨hn, hne, hlik, hns⟩ := h w (List.mem_cons_self w ws)
    simp only [localExtractGo, hn]
    rw [if_neg (by simpa [List.isEmpty_iff] using hne),
        if_neg (by simp [hlik]), if_neg hns]
    congr 1
    refine localExtractGo_eq_self ?_ (List.nodup_cons.mp hnd).2
    intro x hx
    obtain ⟨ha, hb, hc, hd⟩ := h x (List.mem_cons_of_mem w hx)
    refine ⟨ha, hb, hc, ?_⟩
    intro hmem
    rcases List.mem_cons.mp hmem with he | he
    · exact (List.nodup_cons.mp hnd).1 (he ▸ hx)
    · exact hd he

theorem normalizeWord_of_good {t : List Char} (ht : goodToken t) :
    normalizeWord t = t.map asciiLower ∧ goodToken (t.map asciiLower) ∧
    normalizeWord (t.map asciiLower) = t.map asciiLower := by
  obtain ⟨hne, hin, ⟨c, hc, hcl⟩, ⟨d, hd, hdl⟩⟩ := ht
  have htr : trim t = t := trim_eq_self fun x hx => inner_not_ws (hin x hx)
  have hin' : ∀ x ∈ t.map asciiLower, isWordInner x = true := by
    intro x hx
    obtain ⟨y, hy, rfl⟩ := List.mem_map.mp hx
    exact asciiLower_inner (hin y hy)
  have htr' : trim (t.map asciiLower) = t.map asciiLower :=
    trim_eq_self fun x hx => inner_not_ws (hin' x hx)
  refine ⟨by rw [normalizeWord, htr], ⟨?_, hin', ?_, ?_⟩, ?_⟩
  · simpa using hne
  · refine ⟨asciiLower c, ?_, asciiLower_letter hcl⟩
    rw [List.head?_map, hc]
    rfl
  · refine ⟨asciiLower d, ?_, asciiLower_letter hdl⟩
    rw [List.getLast?_map, hd]
    rfl
  · rw [normalizeWord, htr', List.map_map]
    exact List.map_congr_left fun a _ => asciiLower_idem a

theorem localExtractWords_facts {text : List Char} :
    ∀ w ∈ localExtractWords text,
      normalizeWord w = w ∧ w ≠ [] ∧ isLikelyEnglishWord w = true ∧ goodToken w := by
  intro w hw
  obtain ⟨⟨t, ht, rfl⟩, hlik, hne, _⟩ := mem_localExtractGo hw
  have hg := roughTokens_good t ht
  obtain ⟨he, hgm, hid⟩ := normalizeWord_of_good hg
  exact ⟨by rw [he, hid], hne, hlik, he ▸ hgm⟩

/-- C9: the Local Fallback Tokenizer is a pure total function whose
output is duplicate-free, consists of lowercase strict words, and is
idempotent: tokenizing the space-join of the output reproduces the
output. -/
theorem tokenizer_idempotent (text : List Char) :
    (localExtractWords text).Nodup ∧
    (∀ w ∈ localExtractWords text,
      isLikelyEnglishWord w = true ∧ w.map asciiLower = w) ∧
    localExtractWords (joinSpace (localExtractWords text)) = localExtractWords text := by
  refine ⟨localExtractGo_nodup _ _, ?_, ?_⟩
  · intro w hw
    obtain ⟨hnorm, hne, hlik, hgood⟩ := localExtractWords_facts w hw
    refine ⟨hlik, ?_⟩
    have htr : trim w = w := trim_eq_self fun c hc => inner_not_ws (hgood.2.1 c hc)
    calc w.map asciiLower = (trim w).map asciiLower := by rw [htr]
      _ = normalizeWord w := rfl
      _ = w := hnorm
  · show localExtractGo [] (roughTokens (joinSpace (localExtractWords text))) =
      localExtractWords text
    rw [roughTokens_joinSpace fun w hw => (localExtractWords_facts w hw).2.2.2]
    refine localExtractGo_eq_self ?_ (localExtractGo_nodup _ _)
    intro w hw
    obtain ⟨ha, hb, hc, _⟩ := localExtractWords_facts w hw
    exact ⟨ha, hb, hc, List.not_mem_nil w⟩

/-- C9 witness: the theorem at a concrete text; the single produced word
is a lowercase strict word. -/
theorem tokenizer_idempotent_witness :
    isLikelyEnglishWord ("hello".toList) = true ∧
    ("hello".toList).map asciiLower = ("hello".toList) :=
  (tokenizer_idempotent ("Hello!".toList)).2.1 ("hello".toList) (by decide)

end Wordbook
